import Mathlib

/-!
Verification development for the task-list application in `src/script.js`.

The in-memory task store is a JavaScript array of task objects; its mutation
operations (`addTodo`, `toggleTodo`, `deleteTodo`, the `finishEdit` closure of
`startEdit`, `clearCompleted`, `markAllComplete`, `handleDrop`) are embedded
below as pure functions over `List Todo`, with the side channels the code
touches (the `localStorage` write and the notification banner) reflected in
explicit result fields.  The persistence boundary (`loadTodos`, `saveTodos`,
`importTodos`) goes through the platform JSON codec, which is modelled by an
executable serializer `emitVal` and parser `parseValue` over a `JValue` type
mirroring JavaScript's JSON values (numbers restricted to integers, the only
kind this program's data can contain).

DOM manipulation, rendering, theming and drag geometry are outside the model;
where an operation reads the DOM (the drop handler's id order, the edit input's
text, the clock) the value read is passed as an explicit argument.
-/

/-- A task record as constructed by `addTodo` (script.js lines 67-72). -/
structure Todo where
  id : String
  text : String
  completed : Bool
  createdAt : String
  deriving DecidableEq

/-- A banner message emitted through `showNotification(message, type)`. -/
structure Notification where
  message : String
  severity : String
  deriving DecidableEq

/-- Outcome of a store mutation: the new sequence, whether `saveTodos` was
called, and the notifications shown. -/
structure StoreResult where
  todos : List Todo
  saved : Bool
  notifications : List Notification
  deriving DecidableEq

/-- Outcome of committing or abandoning an edit session: additionally records
the `editingId` slot, which the code always clears. -/
structure EditResult where
  todos : List Todo
  editingId : Option String
  saved : Bool
  notifications : List Notification
  deriving DecidableEq

/-- The whitespace set stripped by `String.prototype.trim` (ASCII portion;
this program's inputs contain no exotic Unicode spaces). -/
def isJsWs (c : Char) : Bool :=
  c = ' ' || c = '\t' || c = '\n' || c = '\r' || c = '\x0b' || c = '\x0c'

/-- JavaScript `text.trim()`: strip leading and trailing whitespace. -/
def jsTrim (s : String) : String :=
  String.mk (((s.data.dropWhile isJsWs).reverse.dropWhile isJsWs).reverse)

/-- The id assigned at creation: `Date.now().toString()` (script.js line 68).
The clock reading is the `now` argument. -/
def freshId (now : Nat) : String := toString now

/-- `addTodo(text)` (script.js lines 66-78): build the task object with the
clock-derived id, `completed: false` and the current ISO timestamp, unshift it
onto the sequence, save, and notify. -/
def addTodo (now : Nat) (nowIso : String) (text : String) (todos : List Todo) : StoreResult :=
  let todo : Todo := { id := freshId now, text := text, completed := false, createdAt := nowIso }
  { todos := todo :: todos
    saved := true
    notifications := [{ message := "Task added successfully!", severity := "success" }] }

/-- `handleSubmit` (script.js lines 54-63): trim the input; an empty trimmed
string is falsy, so nothing happens; otherwise `addTodo` runs on the trimmed
text. -/
def handleSubmit (now : Nat) (nowIso : String) (raw : String) (todos : List Todo) : StoreResult :=
  let text := jsTrim raw
  if text = "" then { todos := todos, saved := false, notifications := [] }
  else addTodo now nowIso text todos

/-- The mutation inside `toggleTodo` (script.js lines 81-91): `find` locates
the first task whose id matches and its `completed` flag is negated in place;
later tasks with the same id are untouched. -/
def toggleFirst (i : String) : List Todo → List Todo
  | [] => []
  | t :: rest =>
    if t.id == i then { t with completed := !t.completed } :: rest
    else t :: toggleFirst i rest

/-- `toggleTodo(id)` (script.js lines 81-91): when `find` misses, nothing
happens; otherwise the first match is flipped, the store saves, and the
notification depends on the resulting state. -/
def toggleTodo (i : String) (todos : List Todo) : StoreResult :=
  match todos.find? (fun t => t.id == i) with
  | none => { todos := todos, saved := false, notifications := [] }
  | some t =>
    { todos := toggleFirst i todos
      saved := true
      notifications :=
        [if !t.completed then { message := "Task completed!", severity := "success" }
         else { message := "Task marked as active!", severity := "info" }] }

/-- The state change of `deleteTodo(id)` (script.js line 100): keep every task
whose id differs (the 300ms animation delay is presentation-only). -/
def deleteTodo (i : String) (todos : List Todo) : List Todo :=
  todos.filter (fun t => t.id != i)

/-- The in-place `todo.text = newText` of `finishEdit`, on the first task
whose id matches (the task `find` located in `startEdit`). -/
def setTextFirst (i newText : String) : List Todo → List Todo
  | [] => []
  | t :: rest =>
    if t.id == i then { t with text := newText } :: rest
    else t :: setTextFirst i newText rest

/-- The `finishEdit` closure created by `startEdit(id)` (script.js lines
130-139): trim the edit input; only a non-empty text that differs from the
current text is written back and saved; the editing slot is always cleared. -/
def finishEdit (i : String) (input : String) (todos : List Todo) : EditResult :=
  let newText := jsTrim input
  match todos.find? (fun t => t.id == i) with
  | none => { todos := todos, editingId := none, saved := false, notifications := [] }
  | some t =>
    if newText ≠ "" ∧ newText ≠ t.text then
      { todos := setTextFirst i newText todos
        editingId := none
        saved := true
        notifications := [{ message := "Task updated!", severity := "success" }] }
    else { todos := todos, editingId := none, saved := false, notifications := [] }

/-- The state change of `clearCompleted` (script.js line 180), once the
confirmation gate has been passed: drop every completed task. -/
def clearCompleted (todos : List Todo) : List Todo :=
  todos.filter (fun t => !t.completed)

/-- The state change of `markAllComplete` (script.js lines 192-194): set
`completed` on every task. -/
def markAllComplete (todos : List Todo) : List Todo :=
  todos.map (fun t => { t with completed := true })

/-- JavaScript `Array.prototype.indexOf`: index of the first occurrence, or
-1 when the element is absent (the value `newOrder.indexOf(a.id)` takes in
`handleDrop`). -/
def jsIndexOf (order : List String) (s : String) : Int :=
  match order with
  | [] => -1
  | h :: rest =>
    if h == s then 0
    else
      let r := jsIndexOf rest s
      if r = -1 then -1 else r + 1

/-- One insertion step of a stable sort: the new element goes in front of the
first position whose key is at least as large, hence behind every
strictly-smaller key and in front of every equal key coming from later in the
original list. -/
def insertByKey (k : Todo → Int) (t : Todo) : List Todo → List Todo
  | [] => [t]
  | h :: rest => if k t ≤ k h then t :: h :: rest else h :: insertByKey k t rest

/-- Stable sort by an integer key.  `Array.prototype.sort` is required to be
stable (ES2019), and for a consistent comparator the stable result is unique,
so insertion sort is an exact model of the engine's sort under the comparator
`key a - key b`. -/
def stableSortByKey (k : Todo → Int) : List Todo → List Todo
  | [] => []
  | t :: rest => insertByKey k t (stableSortByKey k rest)

/-- `handleDrop` (script.js lines 328-341): the array is sorted in place with
the comparator `newOrder.indexOf(a.id) - newOrder.indexOf(b.id)`; ids missing
from `newOrder` therefore carry the key -1. -/
def handleDrop (newOrder : List String) (todos : List Todo) : List Todo :=
  stableSortByKey (fun t => jsIndexOf newOrder t.id) todos

/-- The id projection of a sequence, for stating the id-uniqueness invariant. -/
def todoIds (todos : List Todo) : List String := todos.map Todo.id

/-- A JavaScript JSON value, as produced by `JSON.parse` and consumed by
`JSON.stringify`.  Numbers are restricted to integers: the only numbers this
application can store or load are whatever an imported file contains, and the
round-trip claims concern task records, whose fields are strings and booleans. -/
inductive JValue where
  | jnull
  | jbool (b : Bool)
  | jnum (n : Int)
  | jstr (s : String)
  | jarr (elems : List JValue)
  | jobj (fields : List (String × JValue))

/-- The whitespace accepted between JSON tokens (RFC 8259). -/
def isWsChar (c : Char) : Bool := c = ' ' || c = '\t' || c = '\n' || c = '\r'

/-- Drop leading JSON whitespace. -/
def skipWs : List Char → List Char
  | [] => []
  | c :: rest => if isWsChar c then skipWs rest else c :: rest

/-- ASCII decimal digit test, by code point. -/
def isDigitCh (c : Char) : Bool := 48 ≤ c.toNat && c.toNat ≤ 57

/-- The character for a decimal digit value. -/
def digitCh (n : Nat) : Char := Char.ofNat (48 + n)

/-- The lowercase hex digit for a value below 16, as `JSON.stringify` emits in
its control-character escapes. -/
def hexDigitCh (n : Nat) : Char :=
  if n < 10 then Char.ofNat (48 + n) else Char.ofNat (87 + n)

/-- How `JSON.stringify` quotes one character: the two-character escapes for
quote, backslash and the common control characters, a `u0 0 h h` escape for the
remaining control characters, and everything else verbatim. -/
def escapeChar (c : Char) : List Char :=
  if c = '"' then ['\\', '"']
  else if c = '\\' then ['\\', '\\']
  else if c = '\x08' then ['\\', 'b']
  else if c = '\t' then ['\\', 't']
  else if c = '\n' then ['\\', 'n']
  else if c = '\x0c' then ['\\', 'f']
  else if c = '\r' then ['\\', 'r']
  else if c.toNat < 32 then
    ['\\', 'u', '0', '0', hexDigitCh (c.toNat / 16), hexDigitCh (c.toNat % 16)]
  else [c]

/-- Quote every character of a string body. -/
def escapeList : List Char → List Char
  | [] => []
  | c :: rest => escapeChar c ++ escapeList rest

/-- Value of one hex digit, either case, as `JSON.parse` reads `u` escapes. -/
def parseHexDigit (c : Char) : Option Nat :=
  if 48 ≤ c.toNat ∧ c.toNat ≤ 57 then some (c.toNat - 48)
  else if 97 ≤ c.toNat ∧ c.toNat ≤ 102 then some (c.toNat - 87)
  else if 65 ≤ c.toNat ∧ c.toNat ≤ 70 then some (c.toNat - 55)
  else none

/-- The single-character JSON string escapes. -/
def unescapeChar (e : Char) : Option Char :=
  if e = '"' then some '"'
  else if e = '\\' then some '\\'
  else if e = '/' then some '/'
  else if e = 'b' then some '\x08'
  else if e = 'f' then some '\x0c'
  else if e = 'n' then some '\n'
  else if e = 'r' then some '\r'
  else if e = 't' then some '\t'
  else none

/-- Parse a JSON string body after its opening quote, returning the decoded
characters and the input following the closing quote.  Raw control characters
are rejected, as in `JSON.parse`; `u` escapes are accepted for scalar values
below the surrogate range (the model cannot carry lone surrogates, which this
application never produces). -/
def parseStringBody : List Char → Option (List Char × List Char)
  | [] => none
  | c :: rest =>
    if c = '"' then some ([], rest)
    else if c = '\\' then
      match rest with
      | [] => none
      | e :: rest2 =>
        if e = 'u' then
          match rest2 with
          | h1 :: h2 :: h3 :: h4 :: rest3 =>
            match parseHexDigit h1, parseHexDigit h2, parseHexDigit h3, parseHexDigit h4 with
            | some a, some b, some c2, some d =>
              let n := ((a * 16 + b) * 16 + c2) * 16 + d
              if n < 55296 then
                match parseStringBody rest3 with
                | some (cs, r) => some (Char.ofNat n :: cs, r)
                | none => none
              else none
            | _, _, _, _ => none
          | _ => none
        else
          match unescapeChar e with
          | some u =>
            match parseStringBody rest2 with
            | some (cs, r) => some (u :: cs, r)
            | none => none
          | none => none
    else if c.toNat < 32 then none
    else
      match parseStringBody rest with
      | some (cs, r) => some (c :: cs, r)
      | none => none

/-- Greedily consume decimal digits, folding them onto an accumulator. -/
def takeDigits (acc : Nat) : List Char → Nat × List Char
  | [] => (acc, [])
  | c :: rest =>
    if isDigitCh c then takeDigits (acc * 10 + (c.toNat - 48)) rest
    else (acc, c :: rest)

/-- What may legally follow an integer literal in this model: anything except
more digits (the JSON grammar forbids them after a leading `0`, and after other
digits they would have been consumed) and except a fraction or exponent marker,
which the integer-valued model does not represent. -/
def intBoundary : List Char → Bool
  | [] => true
  | c :: _ => !(isDigitCh c || c = '.' || c = 'e' || c = 'E')

/-- Parse an unsigned JSON integer: `0` only when no digit follows (the JSON
grammar), otherwise a nonzero leading digit and its digit run. -/
def parseNatNum : List Char → Option (Nat × List Char)
  | [] => none
  | c :: rest =>
    if c = '0' then
      if intBoundary rest then some (0, rest) else none
    else if isDigitCh c then
      match takeDigits 0 (c :: rest) with
      | (m, r) => if intBoundary r then some (m, r) else none
    else none

/-- Parse a JSON integer with its optional leading minus sign. -/
def parseIntNum : List Char → Option (Int × List Char)
  | [] => none
  | c :: rest =>
    if c = '-' then
      match parseNatNum rest with
      | some (m, r) => some (-(m : Int), r)
      | none => none
    else
      match parseNatNum (c :: rest) with
      | some (m, r) => some ((m : Int), r)
      | none => none

/-- Decimal digits of a natural number, most significant first. -/
def natChars (n : Nat) : List Char :=
  if n < 10 then [digitCh n] else natChars (n / 10) ++ [digitCh (n % 10)]
decreasing_by exact Nat.div_lt_self (by omega) (by omega)

/-- How `JSON.stringify` prints an integer-valued number. -/
def emitInt (n : Int) : List Char :=
  if n < 0 then '-' :: natChars n.natAbs else natChars n.toNat

mutual

/-- `JSON.stringify` (compact form, as called with a single argument in
`saveTodos`): the character stream of a value. -/
def emitVal : JValue → List Char
  | .jnull => ['n', 'u', 'l', 'l']
  | .jbool true => ['t', 'r', 'u', 'e']
  | .jbool false => ['f', 'a', 'l', 's', 'e']
  | .jnum n => emitInt n
  | .jstr s => '"' :: escapeList s.data ++ ['"']
  | .jarr [] => ['[', ']']
  | .jarr (x :: xs) => '[' :: emitSeq x xs ++ [']']
  | .jobj [] => ['\x7b', '\x7d']
  | .jobj (kv :: kvs) => '\x7b' :: emitFieldSeq kv kvs ++ ['\x7d']
termination_by v => sizeOf v
decreasing_by all_goals (simp_wf; try omega)

/-- The comma-separated element stream of a non-empty array. -/
def emitSeq : JValue → List JValue → List Char
  | x, [] => emitVal x
  | x, y :: ys => emitVal x ++ ',' :: emitSeq y ys
termination_by x xs => sizeOf x + sizeOf xs
decreasing_by all_goals (simp_wf; try omega)

/-- The comma-separated member stream of a non-empty object: quoted key,
colon, value. -/
def emitFieldSeq : (String × JValue) → List (String × JValue) → List Char
  | (k, v), [] => '"' :: escapeList k.data ++ '"' :: ':' :: emitVal v
  | (k, v), kv2 :: kvs =>
    ('"' :: escapeList k.data ++ '"' :: ':' :: emitVal v) ++ ',' :: emitFieldSeq kv2 kvs
termination_by kv kvs => sizeOf kv + sizeOf kvs
decreasing_by all_goals (simp_wf; try omega)

end

mutual

/-- Fuel sufficient for `parseValue` to finish on the printed form of a value
(established by `needV_le_emit_length` below). -/
def needV : JValue → Nat
  | .jnull => 1
  | .jbool _ => 1
  | .jnum _ => 1
  | .jstr _ => 1
  | .jarr [] => 1
  | .jarr (x :: xs) => needSeq x xs + 1
  | .jobj [] => 1
  | .jobj (kv :: kvs) => needFieldSeq kv kvs + 1
termination_by v => sizeOf v
decreasing_by all_goals (simp_wf; try omega)

/-- Fuel sufficient for `parseElems` on a printed element stream. -/
def needSeq : JValue → List JValue → Nat
  | x, [] => needV x + 1
  | x, y :: ys => max (needV x) (needSeq y ys) + 1
termination_by x xs => sizeOf x + sizeOf xs
decreasing_by all_goals (simp_wf; try omega)

/-- Fuel sufficient for `parseFields` on a printed member stream. -/
def needFieldSeq : (String × JValue) → List (String × JValue) → Nat
  | (_, v), [] => needV v + 1
  | (_, v), kv :: kvs => max (needV v) (needFieldSeq kv kvs) + 1
termination_by kv kvs => sizeOf kv + sizeOf kvs
decreasing_by all_goals (simp_wf; try omega)

end

mutual

/-- `JSON.parse`, recursive descent over the character list.  The fuel
argument only bounds the recursion depth; `jparse` supplies one more than the
input length, which the soundness lemmas show is never the reason a
well-formed input is rejected. -/
def parseValue : Nat → List Char → Option (JValue × List Char)
  | 0, _ => none
  | f + 1, input =>
    match skipWs input with
    | [] => none
    | c :: rest =>
      if c = 'n' then
        match rest with
        | 'u' :: 'l' :: 'l' :: r => some (.jnull, r)
        | _ => none
      else if c = 't' then
        match rest with
        | 'r' :: 'u' :: 'e' :: r => some (.jbool true, r)
        | _ => none
      else if c = 'f' then
        match rest with
        | 'a' :: 'l' :: 's' :: 'e' :: r => some (.jbool false, r)
        | _ => none
      else if c = '"' then
        match parseStringBody rest with
        | some (cs, r) => some (.jstr (String.mk cs), r)
        | none => none
      else if c = '[' then
        match skipWs rest with
        | [] => none
        | d :: r2 =>
          if d = ']' then some (.jarr [], r2)
          else
            match parseElems f (d :: r2) with
            | some (vs, r) => some (.jarr vs, r)
            | none => none
      else if c = '\x7b' then
        match skipWs rest with
        | [] => none
        | d :: r2 =>
          if d = '\x7d' then some (.jobj [], r2)
          else
            match parseFields f (d :: r2) with
            | some (fs, r) => some (.jobj fs, r)
            | none => none
      else
        match parseIntNum (c :: rest) with
        | some (n, r) => some (.jnum n, r)
        | none => none

/-- Elements of a non-empty array, starting after the opening bracket. -/
def parseElems : Nat → List Char → Option (List JValue × List Char)
  | 0, _ => none
  | f + 1, input =>
    match parseValue f input with
    | none => none
    | some (v, rest) =>
      match skipWs rest with
      | [] => none
      | d :: r2 =>
        if d = ',' then
          match parseElems f r2 with
          | some (vs, r) => some (v :: vs, r)
          | none => none
        else if d = ']' then some ([v], r2)
        else none

/-- Members of a non-empty object, starting after the opening brace. -/
def parseFields : Nat → List Char → Option (List (String × JValue) × List Char)
  | 0, _ => none
  | f + 1, input =>
    match skipWs input with
    | [] => none
    | c :: rest =>
      if c = '"' then
        match parseStringBody rest with
        | none => none
        | some (key, r1) =>
          match skipWs r1 with
          | [] => none
          | d :: r2 =>
            if d = ':' then
              match parseValue f r2 with
              | none => none
              | some (v, r3) =>
                match skipWs r3 with
                | [] => none
                | e :: r4 =>
                  if e = ',' then
                    match parseFields f r4 with
                    | some (fs, r) => some ((String.mk key, v) :: fs, r)
                    | none => none
                  else if e = '\x7d' then some ([(String.mk key, v)], r4)
                  else none
            else none
      else none

end

/-- `JSON.parse` on a whole text: the parsed value when the input is a single
JSON value with nothing but whitespace around it, `none` (an exception in
JavaScript) otherwise. -/
def jparse (s : String) : Option JValue :=
  match parseValue (s.data.length + 1) s.data with
  | some (v, rest) => if skipWs rest = [] then some v else none
  | none => none

/-- `JSON.stringify` on a whole value. -/
def jstringify (v : JValue) : String := String.mk (emitVal v)

/-- A task object as `JSON.stringify` sees it: its four fields in insertion
order. -/
def encodeTodo (t : Todo) : JValue :=
  .jobj [("id", .jstr t.id), ("text", .jstr t.text),
         ("completed", .jbool t.completed), ("createdAt", .jstr t.createdAt)]

/-- `saveTodos` (script.js lines 422-429): the text written to the durable
slot, `JSON.stringify(this.todos)`. -/
def saveTodos (todos : List Todo) : String :=
  jstringify (.jarr (todos.map encodeTodo))

/-- `loadTodos` (script.js lines 412-420): `getItem` yields the slot content
or null; a null or empty (falsy) string gives the empty array, a parse
exception is caught and gives the empty array, and any successfully parsed
value — array or not — is returned unchecked. -/
def loadTodos (slot : Option String) : JValue :=
  match slot with
  | none => .jarr []
  | some s =>
    if s = "" then .jarr []
    else
      match jparse s with
      | some v => v
      | none => .jarr []

/-- Outcome of an import: the sequence (of raw JSON values — the code performs
no per-element validation), whether a save happened, and the banner shown. -/
structure ImportResult where
  todos : List JValue
  saved : Bool
  notifications : List Notification

/-- `importTodos` (script.js lines 510-528), after the file text has been
read: parse failures and non-array results both land in the catch block and
leave the sequence untouched; an array replaces the sequence wholesale. -/
def importTodos (raw : String) (todos : List JValue) : ImportResult :=
  match jparse raw with
  | some (.jarr xs) =>
    { todos := xs
      saved := true
      notifications := [{ message := "Todos imported successfully!", severity := "success" }] }
  | _ =>
    { todos := todos
      saved := false
      notifications := [{ message := "Error importing todos!", severity := "error" }] }

/-! ### Sample tasks used in concrete witnesses and counterexamples -/

/-- A sample active task with id "a". -/
def sampleA : Todo := { id := "a", text := "A", completed := false, createdAt := "t1" }

/-- A sample active task with id "b". -/
def sampleB : Todo := { id := "b", text := "B", completed := false, createdAt := "t2" }

/-- A sample completed task with id "c". -/
def sampleC : Todo := { id := "c", text := "C", completed := true, createdAt := "t3" }

/-- A sample task whose id is the decimal string "5", matching the id a clock
reading of 5 would produce. -/
def sampleFive : Todo := { id := "5", text := "five", completed := false, createdAt := "t5" }

/-! ### Toggle helper lemmas -/

/-- Toggling the same id twice is the identity on the sequence. -/
theorem toggleFirst_toggleFirst (i : String) :
    ∀ l : List Todo, toggleFirst i (toggleFirst i l) = l := by
  intro l
  induction l with
  | nil => rfl
  | cons t rest ih =>
    by_cases h : t.id == i
    · simp [toggleFirst, h]
    · simp [toggleFirst, h, ih]

/-- When no task carries the id, `toggleFirst` changes nothing. -/
theorem toggleFirst_of_absent (i : String) :
    ∀ l : List Todo, (∀ t ∈ l, t.id ≠ i) → toggleFirst i l = l := by
  intro l
  induction l with
  | nil => intro _; rfl
  | cons t rest ih =>
    intro h
    have ht : (t.id == i) = false := by
      simp only [beq_eq_false_iff_ne]
      exact h t (List.mem_cons_self t rest)
    simp [toggleFirst, ht, ih (fun u hu => h u (List.mem_cons_of_mem t hu))]

/-- The sequence component of `toggleTodo` is `toggleFirst` in every case. -/
theorem toggleTodo_todos (i : String) (l : List Todo) :
    (toggleTodo i l).todos = toggleFirst i l := by
  unfold toggleTodo
  cases hf : l.find? (fun t => t.id == i) with
  | some t => rfl
  | none =>
    have habs : ∀ t ∈ l, t.id ≠ i := by
      intro t ht
      have := List.find?_eq_none.mp hf t ht
      simpa using this
    simp [toggleFirst_of_absent i l habs]

/-- C6 (confirmed): toggling an id twice returns the sequence — in particular
every completed flag — to its original state, and toggling an id that no task
carries leaves the sequence unchanged. -/
theorem toggle_twice_restores_and_missing_id_noop :
    ∀ (todos : List Todo) (i : String),
      (toggleTodo i (toggleTodo i todos).todos).todos = todos ∧
      ((∀ t ∈ todos, t.id ≠ i) → (toggleTodo i todos).todos = todos) := by
  intro todos i
  constructor
  · rw [toggleTodo_todos, toggleTodo_todos]
    exact toggleFirst_toggleFirst i todos
  · intro habs
    rw [toggleTodo_todos]
    exact toggleFirst_of_absent i todos habs

/-- Witness for C6 at a concrete store: toggling "a" twice on a two-task store
restores it, and toggling the absent id "z" changes nothing. -/
theorem toggle_twice_restores_and_missing_id_noop_witness :
    (toggleTodo "a" (toggleTodo "a" [sampleA, sampleB]).todos).todos = [sampleA, sampleB] ∧
    (toggleTodo "z" [sampleA, sampleB]).todos = [sampleA, sampleB] :=
  ⟨(toggle_twice_restores_and_missing_id_noop [sampleA, sampleB] "a").1,
   (toggle_twice_restores_and_missing_id_noop [sampleA, sampleB] "z").2 (by decide)⟩

/-- C10 (confirmed): when some task carries the id, the sequence splits as
`pre ++ t :: post` around the first such task, and toggling rewrites exactly
that position with the completed flag negated — id, text and creation time of
`t` are kept by the record update, every task in `pre` and `post` is untouched,
and the length and order are unchanged. -/
theorem toggle_changes_only_first_matching_completed :
    ∀ (todos : List Todo) (i : String), (∃ t ∈ todos, t.id = i) →
      ∃ (pre : List Todo) (t : Todo) (post : List Todo),
        todos = pre ++ t :: post ∧ t.id = i ∧ (∀ u ∈ pre, u.id ≠ i) ∧
        (toggleTodo i todos).todos = pre ++ { t with completed := !t.completed } :: post := by
  intro todos i hex
  rw [toggleTodo_todos]
  induction todos with
  | nil => simp at hex
  | cons h rest ih =>
    by_cases hh : h.id = i
    · refine ⟨[], h, rest, by simp, hh, by simp, ?_⟩
      simp [toggleFirst, hh]
    · have hex' : ∃ t ∈ rest, t.id = i := by
        rcases hex with ⟨t, ht, hti⟩
        rcases List.mem_cons.mp ht with rfl | htr
        · exact absurd hti hh
        · exact ⟨t, htr, hti⟩
      rcases ih hex' with ⟨pre, t, post, heq, hti, hpre, htl⟩
      refine ⟨h :: pre, t, post, by simp [heq], hti, ?_, ?_⟩
      · intro u hu
        rcases List.mem_cons.mp hu with rfl | hupre
        · exact hh
        · exact hpre u hupre
      · have hhb : (h.id == i) = false := by simpa using hh
        simp [toggleFirst, hhb, htl]

/-- Witness for C10: on the store with tasks "a" and "b", toggling "b" splits
around the task with id "b". -/
theorem toggle_changes_only_first_matching_completed_witness :
    ∃ (pre : List Todo) (t : Todo) (post : List Todo),
      [sampleA, sampleB] = pre ++ t :: post ∧ t.id = "b" ∧ (∀ u ∈ pre, u.id ≠ "b") ∧
      (toggleTodo "b" [sampleA, sampleB]).todos =
        pre ++ { t with completed := !t.completed } :: post :=
  toggle_changes_only_first_matching_completed [sampleA, sampleB] "b"
    ⟨sampleB, by decide, by decide⟩

/-- C4 (confirmed): a text that trims to empty is falsy in `handleSubmit`, so
the sequence, the persisted state and the notification channel are all
untouched. -/
theorem add_blank_text_is_noop :
    ∀ (now : Nat) (nowIso raw : String) (todos : List Todo),
      jsTrim raw = "" →
      handleSubmit now nowIso raw todos =
        { todos := todos, saved := false, notifications := [] } := by
  intro now nowIso raw todos h
  simp [handleSubmit, h]

/-- Witness for C4 at the spec's example input of three spaces. -/
theorem add_blank_text_is_noop_witness :
    handleSubmit 1 "2024-01-01T00:00:00.000Z" "   " [sampleA] =
      { todos := [sampleA], saved := false, notifications := [] } :=
  add_blank_text_is_noop 1 "2024-01-01T00:00:00.000Z" "   " [sampleA] (by decide)

/-- C5 (confirmed): a text with non-empty trim is prepended as a fresh task —
the new sequence is exactly the new task consed onto the old one, so the count
grows by one, the new task sits at index 0 with `completed := false`, and every
old task keeps its relative position shifted by one. -/
theorem add_nonempty_text_prepends_fresh_task :
    ∀ (now : Nat) (nowIso raw : String) (todos : List Todo),
      jsTrim raw ≠ "" →
      (handleSubmit now nowIso raw todos).todos =
        { id := freshId now, text := jsTrim raw, completed := false, createdAt := nowIso }
          :: todos ∧
      (handleSubmit now nowIso raw todos).todos.length = todos.length + 1 := by
  intro now nowIso raw todos h
  constructor <;> simp [handleSubmit, addTodo, h]

/-- Witness for C5: adding " buy milk " to a one-task store. -/
theorem add_nonempty_text_prepends_fresh_task_witness :
    (handleSubmit 7 "t0" " buy milk " [sampleA]).todos =
      { id := freshId 7, text := jsTrim " buy milk ", completed := false, createdAt := "t0" }
        :: [sampleA] ∧
    (handleSubmit 7 "t0" " buy milk " [sampleA]).todos.length = [sampleA].length + 1 :=
  add_nonempty_text_prepends_fresh_task 7 "t0" " buy milk " [sampleA] (by decide)

/-- C7 (confirmed): committing an edit whose trimmed text is empty or equal to
the current text of the edited task takes the else-branch of `finishEdit`: the
sequence is returned as is, no save happens, no banner is shown, and the
editing slot is cleared. -/
theorem edit_unchanged_text_exits_without_save :
    ∀ (todos : List Todo) (i input : String) (t : Todo),
      todos.find? (fun u => u.id == i) = some t →
      (jsTrim input = "" ∨ jsTrim input = t.text) →
      finishEdit i input todos =
        { todos := todos, editingId := none, saved := false, notifications := [] } := by
  intro todos i input t hf h
  unfold finishEdit
  rw [hf]
  rcases h with h | h <;> simp [h]

/-- Witness for C7: committing the edit text " A " (trimming to the current
text "A") on the task with id "a". -/
theorem edit_unchanged_text_exits_without_save_witness :
    finishEdit "a" " A " [sampleA, sampleB] =
      { todos := [sampleA, sampleB], editingId := none, saved := false, notifications := [] } :=
  edit_unchanged_text_exits_without_save [sampleA, sampleB] "a" " A " sampleA
    (by decide) (Or.inr (by decide))

/-! ### Stable-sort helper lemmas for the reorder operation -/

/-- Inserting an element permutes the cons. -/
theorem insertByKey_perm (k : Todo → Int) (t : Todo) :
    ∀ l : List Todo, List.Perm (insertByKey k t l) (t :: l) := by
  intro l
  induction l with
  | nil => exact List.Perm.refl _
  | cons x rest ih =>
    by_cases hle : k t ≤ k x
    · simp [insertByKey, hle]
    · simp only [insertByKey, if_neg hle]
      exact (List.Perm.cons x ih).trans (List.Perm.swap t x rest)

/-- Membership in an insertion. -/
theorem mem_insertByKey (k : Todo → Int) (t a : Todo) (l : List Todo) :
    a ∈ insertByKey k t l ↔ a = t ∨ a ∈ l := by
  rw [(insertByKey_perm k t l).mem_iff]
  simp

/-- Insertion keeps the list sorted by key. -/
theorem insertByKey_pairwise (k : Todo → Int) (t : Todo) :
    ∀ l : List Todo, l.Pairwise (fun a b => k a ≤ k b) →
      (insertByKey k t l).Pairwise (fun a b => k a ≤ k b) := by
  intro l
  induction l with
  | nil => intro _; simp [insertByKey]
  | cons x rest ih =>
    intro hp
    rw [List.pairwise_cons] at hp
    by_cases hle : k t ≤ k x
    · simp only [insertByKey, if_pos hle]
      rw [List.pairwise_cons]
      refine ⟨?_, List.pairwise_cons.mpr hp⟩
      intro b hb
      rcases List.mem_cons.mp hb with rfl | hbr
      · exact hle
      · exact le_trans hle (hp.1 b hbr)
    · simp only [insertByKey, if_neg hle]
      rw [List.pairwise_cons]
      refine ⟨?_, ih hp.2⟩
      intro b hb
      rcases (mem_insertByKey k t b rest).mp hb with rfl | hbr
      · exact le_of_lt (lt_of_not_le hle)
      · exact hp.1 b hbr

/-- The sort permutes its input. -/
theorem stableSortByKey_perm (k : Todo → Int) :
    ∀ l : List Todo, List.Perm (stableSortByKey k l) l := by
  intro l
  induction l with
  | nil => exact List.Perm.refl _
  | cons x rest ih =>
    exact (insertByKey_perm k x (stableSortByKey k rest)).trans (List.Perm.cons x ih)

/-- The sort output is sorted by key. -/
theorem stableSortByKey_pairwise (k : Todo → Int) :
    ∀ l : List Todo, (stableSortByKey k l).Pairwise (fun a b => k a ≤ k b) := by
  intro l
  induction l with
  | nil => simp [stableSortByKey]
  | cons x rest ih => exact insertByKey_pairwise k x _ ih

/-- Insertion and key-filtering commute: the inserted element lands in front
of every element of its own key class (it only walks past strictly smaller
keys), and every other key class is untouched. -/
theorem insertByKey_filter (k : Todo → Int) (t : Todo) (c : Int) :
    ∀ l : List Todo,
      (insertByKey k t l).filter (fun x => k x == c) =
        if k t = c then t :: l.filter (fun x => k x == c)
        else l.filter (fun x => k x == c) := by
  intro l
  induction l with
  | nil => by_cases h : k t = c <;> simp [insertByKey, h]
  | cons x rest ih =>
    by_cases hle : k t ≤ k x
    · rw [insertByKey, if_pos hle]
      by_cases h : k t = c <;> simp [List.filter_cons, h]
    · rw [insertByKey, if_neg hle]
      have hxlt : k x < k t := lt_of_not_le hle
      rw [List.filter_cons, ih]
      by_cases h : k t = c
      · have hxc : (k x == c) = false := by
          simp only [beq_eq_false_iff_ne]
          omega
        simp [hxc, h, List.filter_cons]
      · simp [h, List.filter_cons]

/-- Stability, phrased per key class: sorting does not disturb the relative
order of elements sharing a key. -/
theorem stableSortByKey_filter (k : Todo → Int) (c : Int) :
    ∀ l : List Todo,
      (stableSortByKey k l).filter (fun x => k x == c) =
        l.filter (fun x => k x == c) := by
  intro l
  induction l with
  | nil => rfl
  | cons x rest ih =>
    rw [stableSortByKey, insertByKey_filter]
    by_cases h : k x = c
    · simp [List.filter_cons, h, ih]
    · simp [List.filter_cons, h, ih]

/-- `jsIndexOf` never returns anything below -1. -/
theorem jsIndexOf_ge_neg_one (s : String) :
    ∀ order : List String, -1 ≤ jsIndexOf order s := by
  intro order
  induction order with
  | nil => simp [jsIndexOf]
  | cons h rest ih =>
    by_cases hh : h == s
    · simp [jsIndexOf, hh]
    · by_cases hr : jsIndexOf rest s = -1 <;> simp [jsIndexOf, hh, hr] <;> omega

/-- `jsIndexOf` returns -1 exactly for absent elements. -/
theorem jsIndexOf_eq_neg_one_iff (s : String) :
    ∀ order : List String, jsIndexOf order s = -1 ↔ s ∉ order := by
  intro order
  induction order with
  | nil => simp [jsIndexOf]
  | cons h rest ih =>
    by_cases hh : h == s
    · have : h = s := by simpa using hh
      simp [jsIndexOf, hh, this]
    · have hne : ¬ h = s := by simpa using hh
      by_cases hr : jsIndexOf rest s = -1
      · have hsh : ¬ s = h := fun e => hne e.symm
        simp [jsIndexOf, hh, hr, List.mem_cons, ih.mp hr, hsh]
      · have hge := jsIndexOf_ge_neg_one s rest
        have hmem : s ∈ rest := by
          by_contra hs
          exact hr (ih.mpr hs)
        simp [jsIndexOf, hh, hr, List.mem_cons, hmem]
        omega

/-- C1: counterexample — on the store `[a, b, c]` the drop order `["c", "a"]`
leaves id "b" absent; its `indexOf` key is -1, below the keys 0 and 1 of "c"
and "a", so the sort places it FIRST: the result is `[b, c, a]`, while the
claim requires the absent-id task to come after the present ones, `[c, a, b]`. -/
theorem reorder_places_absent_ids_first_counterexample :
    handleDrop ["c", "a"] [sampleA, sampleB, sampleC] = [sampleB, sampleC, sampleA] ∧
    handleDrop ["c", "a"] [sampleA, sampleB, sampleC] ≠ [sampleC, sampleA, sampleB] := by
  refine ⟨by decide, by decide⟩

/-- C1 (amended): `handleDrop` is the stable sort of the sequence by each
task's first index in `newIdOrder`, where an absent id has key -1.  Hence the
keys are nondecreasing along the result (so tasks whose ids appear are
arranged in the relative order of their indices, and every task whose id is
absent is placed BEFORE all tasks whose ids appear, since -1 is below every
index); for every key value the tasks of that key keep their original relative
order (in particular the absent-id tasks do, and so do duplicate-id tasks);
and the result is a permutation of the input.  The final component identifies
key -1 with absence from `newIdOrder`. -/
theorem reorder_is_stable_sort_by_index :
    ∀ (newOrder : List String) (todos : List Todo),
      (handleDrop newOrder todos).Pairwise
        (fun a b => jsIndexOf newOrder a.id ≤ jsIndexOf newOrder b.id) ∧
      (∀ c : Int,
        (handleDrop newOrder todos).filter (fun t => jsIndexOf newOrder t.id == c) =
          todos.filter (fun t => jsIndexOf newOrder t.id == c)) ∧
      List.Perm (handleDrop newOrder todos) todos ∧
      (∀ s : String, jsIndexOf newOrder s = -1 ↔ s ∉ newOrder) := by
  intro newOrder todos
  refine ⟨stableSortByKey_pairwise _ todos, ?_, stableSortByKey_perm _ todos,
    fun s => jsIndexOf_eq_neg_one_iff s newOrder⟩
  intro c
  exact stableSortByKey_filter (fun t => jsIndexOf newOrder t.id) c todos

/-! ### Id projection lemmas for the uniqueness invariant -/

/-- Toggling never changes the id column. -/
theorem toggleFirst_map_id (i : String) :
    ∀ l : List Todo, (toggleFirst i l).map Todo.id = l.map Todo.id := by
  intro l
  induction l with
  | nil => rfl
  | cons t rest ih =>
    by_cases h : t.id == i <;> simp [toggleFirst, h, ih]

/-- Rewriting a text never changes the id column. -/
theorem setTextFirst_map_id (i input : String) :
    ∀ l : List Todo, (setTextFirst i input l).map Todo.id = l.map Todo.id := by
  intro l
  induction l with
  | nil => rfl
  | cons t rest ih =>
    by_cases h : t.id == i <;> simp [setTextFirst, h, ih]

/-- Completing every task never changes the id column. -/
theorem markAllComplete_map_id :
    ∀ l : List Todo, (markAllComplete l).map Todo.id = l.map Todo.id := by
  intro l
  induction l with
  | nil => rfl
  | cons t rest ih => simp [markAllComplete, ih]
  /- `markAllComplete` of a cons is the updated head consed onto the mapped
  tail, and the update keeps the id field. -/

/-- C2: counterexample — the store holding only the task with id "5" has
pairwise-distinct ids, yet adding a task when the clock reads 5 produces two
tasks with id "5": `Date.now().toString()` is not guaranteed fresh, so the
claimed invariant is not enforced by `addTodo`. -/
theorem add_creates_duplicate_id_counterexample :
    (todoIds [sampleFive]).Nodup ∧
    ¬ (todoIds (addTodo 5 "t9" "again" [sampleFive]).todos).Nodup := by
  refine ⟨by decide, by decide⟩

/-- C2 (amended): the id column stays duplicate-free under every sequence
operation except that `addTodo` needs the clock-derived id to differ from all
stored ids (two adds in the same millisecond, or an imported id equal to a
later clock string, violate it — see the counterexample), and `importTodos`
replaces the sequence without any validation at all.  Under that freshness
side condition, add preserves uniqueness, and toggle, delete, edit, clear,
mark-all and reorder preserve it unconditionally. -/
theorem store_ops_preserve_unique_ids :
    ∀ (todos : List Todo) (now : Nat) (nowIso text i input : String) (order : List String),
      (todoIds todos).Nodup →
      ((freshId now ∉ todoIds todos →
          (todoIds (addTodo now nowIso text todos).todos).Nodup) ∧
        (todoIds (toggleFirst i todos)).Nodup ∧
        (todoIds (deleteTodo i todos)).Nodup ∧
        (todoIds (setTextFirst i input todos)).Nodup ∧
        (todoIds (clearCompleted todos)).Nodup ∧
        (todoIds (markAllComplete todos)).Nodup ∧
        (todoIds (handleDrop order todos)).Nodup) := by
  intro todos now nowIso text i input order hnd
  refine ⟨?_, ?_, ?_, ?_, ?_, ?_, ?_⟩
  · intro hfresh
    simp only [addTodo, todoIds, List.map_cons, List.nodup_cons]
    exact ⟨hfresh, hnd⟩
  · simpa [todoIds, toggleFirst_map_id] using hnd
  · exact hnd.sublist ((List.filter_sublist todos).map Todo.id)
  · simpa [todoIds, setTextFirst_map_id] using hnd
  · exact hnd.sublist ((List.filter_sublist todos).map Todo.id)
  · simpa [todoIds, markAllComplete_map_id] using hnd
  · exact (((stableSortByKey_perm _ todos).map Todo.id).nodup_iff).mpr hnd

/-- Witness for C2 (amended) on a concrete one-task store with a fresh clock
value of 7. -/
theorem store_ops_preserve_unique_ids_witness :
    (todoIds (addTodo 7 "t7" "new" [sampleA]).todos).Nodup ∧
    (todoIds (toggleFirst "a" [sampleA])).Nodup ∧
    (todoIds (deleteTodo "a" [sampleA])).Nodup ∧
    (todoIds (setTextFirst "a" "text2" [sampleA])).Nodup ∧
    (todoIds (clearCompleted [sampleA])).Nodup ∧
    (todoIds (markAllComplete [sampleA])).Nodup ∧
    (todoIds (handleDrop ["a"] [sampleA])).Nodup := by
  have h := store_ops_preserve_unique_ids [sampleA] 7 "t7" "new" "a" "text2" ["a"] (by decide)
  exact ⟨h.1 (by decide), h.2.1, h.2.2.1, h.2.2.2.1, h.2.2.2.2.1, h.2.2.2.2.2.1,
    h.2.2.2.2.2.2⟩

/-! ### Decimal digit lemmas -/

/-- Digit characters are digits. -/
theorem isDigitCh_digitCh : ∀ n, n < 10 → isDigitCh (digitCh n) = true := by decide

/-- The code point of a digit character. -/
theorem toNat_digitCh : ∀ n, n < 10 → (digitCh n).toNat = 48 + n := by decide

/-- Only the zero digit prints as the zero character. -/
theorem digitCh_eq_zero_char : ∀ n, n < 10 → ((digitCh n = '0') ↔ n = 0) := by decide

/-- A digit character is none of the characters the value parser dispatches
on, is not whitespace, and is not a closing delimiter or separator. -/
theorem digitCh_not_special :
    ∀ n, n < 10 →
      (digitCh n ≠ 'n' ∧ digitCh n ≠ 't' ∧ digitCh n ≠ 'f' ∧ digitCh n ≠ '"' ∧
       digitCh n ≠ '[' ∧ digitCh n ≠ '\x7b' ∧ digitCh n ≠ '-' ∧
       isWsChar (digitCh n) = false ∧ digitCh n ≠ ']') := by decide

/-- `natChars` prints a leading digit first, and the leading digit of a
positive number is positive. -/
theorem natChars_head :
    ∀ n : Nat, ∃ d t, natChars n = digitCh d :: t ∧ d < 10 ∧ (1 ≤ n → 1 ≤ d) := by
  intro n
  induction n using Nat.strong_induction_on with
  | _ n ih =>
    by_cases h : n < 10
    · exact ⟨n, [], by rw [natChars, if_pos h], h, fun h1 => h1⟩
    · have h10 : 10 ≤ n := le_of_not_lt h
      have hdiv : n / 10 < n := Nat.div_lt_self (by omega) (by omega)
      rcases ih (n / 10) hdiv with ⟨d, t, heq, hd, hpos⟩
      refine ⟨d, t ++ [digitCh (n % 10)], ?_, hd, fun _ => hpos (by omega)⟩
      rw [natChars, if_neg h, heq]
      simp

/-- The digit-run length of `natChars` grows by one per division by ten. -/
theorem natChars_length_div (n : Nat) (h : ¬ n < 10) :
    (natChars n).length = (natChars (n / 10)).length + 1 := by
  rw [natChars, if_neg h]
  simp

/-- Consuming a printed number folds its value onto the accumulator and
continues into the remainder. -/
theorem takeDigits_natChars :
    ∀ n acc rest, takeDigits acc (natChars n ++ rest) =
      takeDigits (acc * 10 ^ (natChars n).length + n) rest := by
  intro n
  induction n using Nat.strong_induction_on with
  | _ n ih =>
    intro acc rest
    by_cases h : n < 10
    · rw [natChars, if_pos h]
      simp only [List.cons_append, List.nil_append, takeDigits,
        isDigitCh_digitCh n h, toNat_digitCh n h]
      norm_num
    · have hdiv : n / 10 < n := Nat.div_lt_self (by omega) (by omega)
      have hm : n % 10 < 10 := Nat.mod_lt n (by omega)
      rw [natChars, if_neg h, List.append_assoc, List.cons_append, List.nil_append,
        ih (n / 10) hdiv]
      simp only [takeDigits, isDigitCh_digitCh (n % 10) hm, toNat_digitCh (n % 10) hm,
        if_true, List.length_append, List.length_cons, List.length_nil]
      congr 1
      have hpow : (10 : Nat) ^ ((natChars (n / 10)).length + (0 + 1)) =
          10 ^ (natChars (n / 10)).length * 10 := by
        rw [Nat.zero_add]
        exact pow_succ 10 _
      rw [hpow]
      have hassoc : acc * (10 ^ (natChars (n / 10)).length * 10) =
          acc * 10 ^ (natChars (n / 10)).length * 10 := by ring
      rw [hassoc]
      have hdm := Nat.div_add_mod n 10
      generalize acc * (10 : Nat) ^ (natChars (n / 10)).length = Y
      omega

/-- `takeDigits` stops cleanly at an integer boundary. -/
theorem takeDigits_stop (acc : Nat) :
    ∀ rest, intBoundary rest = true → takeDigits acc rest = (acc, rest) := by
  intro rest h
  cases rest with
  | nil => rfl
  | cons c l =>
    simp only [intBoundary, Bool.not_eq_true', Bool.or_eq_false_iff] at h
    simp [takeDigits, h.1.1]

/-- Parsing inverts printing for unsigned integers, given a sound boundary. -/
theorem parseNatNum_natChars :
    ∀ m rest, intBoundary rest = true → parseNatNum (natChars m ++ rest) = some (m, rest) := by
  intro m rest hb
  by_cases hm : m = 0
  · subst hm
    have h0 : natChars 0 = ['0'] := by rw [natChars]; rfl
    rw [h0]
    simp [parseNatNum, hb]
  · rcases natChars_head m with ⟨d, t, heq, hd, hpos⟩
    have hd1 : 1 ≤ d := hpos (by omega)
    have hne0 : ¬ digitCh d = '0' := by
      rw [digitCh_eq_zero_char d hd]
      omega
    rw [heq, List.cons_append]
    simp only [parseNatNum, if_neg hne0, isDigitCh_digitCh d hd, if_pos rfl]
    rw [← List.cons_append, ← heq, takeDigits_natChars, takeDigits_stop _ rest hb]
    simp [hb]

/-- Parsing inverts printing for signed integers. -/
theorem parseIntNum_emitInt :
    ∀ (n : Int) rest, intBoundary rest = true →
      parseIntNum (emitInt n ++ rest) = some (n, rest) := by
  intro n rest hb
  by_cases hneg : n < 0
  · rw [emitInt, if_pos hneg, List.cons_append]
    have habs : -((n.natAbs : Nat) : Int) = n := by omega
    simp only [parseIntNum, if_pos rfl, if_true, parseNatNum_natChars n.natAbs rest hb, habs]
  · rw [emitInt, if_neg hneg]
    rcases natChars_head n.toNat with ⟨d, t, heq, hd, _⟩
    have hnd := digitCh_not_special d hd
    have htn : ((n.toNat : Nat) : Int) = n := by omega
    rw [heq, List.cons_append]
    simp only [parseIntNum, if_neg hnd.2.2.2.2.2.2.1]
    rw [← List.cons_append, ← heq, parseNatNum_natChars n.toNat rest hb]
    simp only [htn]

/-! ### String escape lemmas -/

/-- Hex digits printed by the escaper are read back by the parser. -/
theorem parseHexDigit_hexDigitCh : ∀ n, n < 16 → parseHexDigit (hexDigitCh n) = some n := by
  decide

/-- The zero hex digit parses to zero. -/
theorem parseHexDigit_zero : parseHexDigit '0' = some 0 := by decide

/-- Parsing a string body inverts escaping: the escaped characters followed by
a closing quote decode to the original characters with the quote consumed. -/
theorem parseStringBody_escapeList :
    ∀ cs rest, parseStringBody (escapeList cs ++ '"' :: rest) = some (cs, rest) := by
  intro cs
  induction cs with
  | nil =>
    intro rest
    rw [escapeList, List.nil_append, parseStringBody.eq_def]
    simp
  | cons c cs ih =>
    intro rest
    rw [escapeList, List.append_assoc]
    by_cases h1 : c = '"'
    · subst h1
      have he : escapeChar '"' = ['\\', '"'] := by decide
      rw [he]
      simp only [List.cons_append, List.nil_append]
      rw [parseStringBody.eq_def]
      simp [unescapeChar, ih]
    · by_cases h2 : c = '\\'
      · subst h2
        have he : escapeChar '\\' = ['\\', '\\'] := by decide
        rw [he]
        simp only [List.cons_append, List.nil_append]
        rw [parseStringBody.eq_def]
        simp [unescapeChar, ih]
      · by_cases h3 : c = '\x08'
        · subst h3
          have he : escapeChar '\x08' = ['\\', 'b'] := by decide
          rw [he]
          simp only [List.cons_append, List.nil_append]
          rw [parseStringBody.eq_def]
          simp [unescapeChar, ih]
        · by_cases h4 : c = '\t'
          · subst h4
            have he : escapeChar '\t' = ['\\', 't'] := by decide
            rw [he]
            simp only [List.cons_append, List.nil_append]
            rw [parseStringBody.eq_def]
            simp [unescapeChar, ih]
          · by_cases h5 : c = '\n'
            · subst h5
              have he : escapeChar '\n' = ['\\', 'n'] := by decide
              rw [he]
              simp only [List.cons_append, List.nil_append]
              rw [parseStringBody.eq_def]
              simp [unescapeChar, ih]
            · by_cases h6 : c = '\x0c'
              · subst h6
                have he : escapeChar '\x0c' = ['\\', 'f'] := by decide
                rw [he]
                simp only [List.cons_append, List.nil_append]
                rw [parseStringBody.eq_def]
                simp [unescapeChar, ih]
              · by_cases h7 : c = '\r'
                · subst h7
                  have he : escapeChar '\r' = ['\\', 'r'] := by decide
                  rw [he]
                  simp only [List.cons_append, List.nil_append]
                  rw [parseStringBody.eq_def]
                  simp [unescapeChar, ih]
                · by_cases h8 : c.toNat < 32
                  · rw [escapeChar, if_neg h1, if_neg h2, if_neg h3, if_neg h4, if_neg h5,
                      if_neg h6, if_neg h7, if_pos h8]
                    have hhi : c.toNat / 16 < 16 := by omega
                    have hlo : c.toNat % 16 < 16 := by omega
                    have hval : c.toNat / 16 * 16 + c.toNat % 16 = c.toNat := by omega
                    have hlt : c.toNat < 55296 := by omega
                    simp only [List.cons_append, List.nil_append]
                    rw [parseStringBody.eq_def]
                    simp [parseHexDigit_zero, parseHexDigit_hexDigitCh _ hhi,
                      parseHexDigit_hexDigitCh _ hlo, hval, hlt, Char.ofNat_toNat, ih]
                  · rw [escapeChar, if_neg h1, if_neg h2, if_neg h3, if_neg h4, if_neg h5,
                      if_neg h6, if_neg h7, if_neg h8]
                    simp only [List.cons_append, List.nil_append]
                    rw [parseStringBody.eq_def]
                    simp [h1, h2, h8, ih]

/-! ### Head-character and fuel facts for the round trip -/

/-- A closing bracket is a sound integer boundary. -/
theorem intBoundary_rbracket (l : List Char) : intBoundary (']' :: l) = true := rfl

/-- A comma is a sound integer boundary. -/
theorem intBoundary_comma (l : List Char) : intBoundary (',' :: l) = true := rfl

/-- A closing brace is a sound integer boundary. -/
theorem intBoundary_rbrace (l : List Char) : intBoundary ('\x7d' :: l) = true := rfl

/-- Every value needs at least one unit of fuel. -/
theorem one_le_needV : ∀ v, 1 ≤ needV v := by
  intro v
  cases v with
  | jnull => simp [needV]
  | jbool b => simp [needV]
  | jnum n => simp [needV]
  | jstr s => simp [needV]
  | jarr xs => cases xs <;> simp [needV]
  | jobj kvs => cases kvs <;> simp [needV]

/-- Every element stream needs at least one unit of fuel. -/
theorem one_le_needSeq : ∀ x xs, 1 ≤ needSeq x xs := by
  intro x xs
  cases xs <;> simp [needSeq]

/-- Every member stream needs at least one unit of fuel. -/
theorem one_le_needFieldSeq : ∀ kv kvs, 1 ≤ needFieldSeq kv kvs := by
  intro kv kvs
  obtain ⟨k, v⟩ := kv
  cases kvs <;> simp [needFieldSeq]

/-- A printed integer starts with a minus sign or a digit: not whitespace, not
a dispatch character of the value parser, and not a closing bracket. -/
theorem emitInt_head :
    ∀ n : Int, ∃ c cs, emitInt n = c :: cs ∧ isWsChar c = false ∧ c ≠ 'n' ∧ c ≠ 't' ∧
      c ≠ 'f' ∧ c ≠ '"' ∧ c ≠ '[' ∧ c ≠ '\x7b' ∧ c ≠ ']' := by
  intro n
  by_cases hneg : n < 0
  · exact ⟨'-', natChars n.natAbs, by rw [emitInt, if_pos hneg], by decide, by decide,
      by decide, by decide, by decide, by decide, by decide, by decide⟩
  · rcases natChars_head n.toNat with ⟨d, t, heq, hd, _⟩
    have hnd := digitCh_not_special d hd
    exact ⟨digitCh d, t, by rw [emitInt, if_neg hneg, heq], hnd.2.2.2.2.2.2.2.1, hnd.1,
      hnd.2.1, hnd.2.2.1, hnd.2.2.2.1, hnd.2.2.2.2.1, hnd.2.2.2.2.2.1, hnd.2.2.2.2.2.2.2.2⟩

/-- A printed value starts with a non-whitespace character other than a
closing bracket. -/
theorem emitVal_head :
    ∀ v, ∃ c cs, emitVal v = c :: cs ∧ isWsChar c = false ∧ c ≠ ']' := by
  intro v
  cases v with
  | jnull => exact ⟨'n', ['u', 'l', 'l'], by simp [emitVal], by decide, by decide⟩
  | jbool b =>
    cases b with
    | true => exact ⟨'t', ['r', 'u', 'e'], by simp [emitVal], by decide, by decide⟩
    | false => exact ⟨'f', ['a', 'l', 's', 'e'], by simp [emitVal], by decide, by decide⟩
  | jnum n =>
    rcases emitInt_head n with ⟨c, cs, hec, hw, _, _, _, _, _, _, hbk⟩
    exact ⟨c, cs, by simp [emitVal, hec], hw, hbk⟩
  | jstr s =>
    exact ⟨'"', escapeList s.data ++ ['"'], by simp [emitVal], by decide, by decide⟩
  | jarr xs =>
    cases xs with
    | nil => exact ⟨'[', [']'], by simp [emitVal], by decide, by decide⟩
    | cons x xs2 =>
      exact ⟨'[', emitSeq x xs2 ++ [']'], by simp [emitVal], by decide, by decide⟩
  | jobj kvs =>
    cases kvs with
    | nil => exact ⟨'\x7b', ['\x7d'], by simp [emitVal], by decide, by decide⟩
    | cons kv kvs2 =>
      exact ⟨'\x7b', emitFieldSeq kv kvs2 ++ ['\x7d'], by simp [emitVal], by decide, by decide⟩

/-- A printed element stream starts like a printed value. -/
theorem emitSeq_head :
    ∀ x xs, ∃ c cs, emitSeq x xs = c :: cs ∧ isWsChar c = false ∧ c ≠ ']' := by
  intro x xs
  rcases emitVal_head x with ⟨c, cs, hec, hw, hbk⟩
  cases xs with
  | nil => exact ⟨c, cs, by simp [emitSeq, hec], hw, hbk⟩
  | cons y ys => exact ⟨c, cs ++ ',' :: emitSeq y ys, by simp [emitSeq, hec], hw, hbk⟩

/-- A printed member stream always starts with the key's opening quote. -/
theorem emitFieldSeq_head :
    ∀ kv kvs, ∃ cs, emitFieldSeq kv kvs = '"' :: cs := by
  intro kv kvs
  obtain ⟨k, v⟩ := kv
  cases kvs with
  | nil => exact ⟨escapeList k.data ++ '"' :: ':' :: emitVal v, by simp [emitFieldSeq]⟩
  | cons kv2 kvs2 =>
    exact ⟨escapeList k.data ++ '"' :: ':' :: emitVal v ++ ',' :: emitFieldSeq kv2 kvs2,
      by simp [emitFieldSeq]⟩

/-- The codec round trip at the character level, proved by induction on the
fuel: with enough fuel, parsing a printed value (or element stream, or member
stream) succeeds and returns exactly the printed value and the untouched
remainder. -/
theorem parse_emit_roundtrip :
    ∀ f : Nat,
      (∀ v rest, needV v ≤ f → intBoundary rest = true →
        parseValue f (emitVal v ++ rest) = some (v, rest)) ∧
      (∀ x xs rest, needSeq x xs ≤ f →
        parseElems f (emitSeq x xs ++ ']' :: rest) = some (x :: xs, rest)) ∧
      (∀ kv kvs rest, needFieldSeq kv kvs ≤ f →
        parseFields f (emitFieldSeq kv kvs ++ '\x7d' :: rest) = some (kv :: kvs, rest)) := by
  intro f
  induction f with
  | zero =>
    refine ⟨?_, ?_, ?_⟩
    · intro v rest hneed _
      have := one_le_needV v
      omega
    · intro x xs rest hneed
      have := one_le_needSeq x xs
      omega
    · intro kv kvs rest hneed
      have := one_le_needFieldSeq kv kvs
      omega
  | succ f ih =>
    obtain ⟨ihV, ihE, ihF⟩ := ih
    refine ⟨?_, ?_, ?_⟩
    · intro v rest hneed hb
      cases v with
      | jnull => simp [emitVal, parseValue, skipWs, isWsChar]
      | jbool b => cases b <;> simp [emitVal, parseValue, skipWs, isWsChar]
      | jnum n =>
        rcases emitInt_head n with ⟨c, cs, hec, hw, hn, ht, hf2, hq, hbrk, hbrc, _⟩
        have hI : parseIntNum (c :: (cs ++ rest)) = some (n, rest) := by
          rw [← List.cons_append, ← hec]
          exact parseIntNum_emitInt n rest hb
        rw [show emitVal (.jnum n) = emitInt n from by simp [emitVal], hec, List.cons_append]
        simp [parseValue, skipWs, hw, hn, ht, hf2, hq, hbrk, hbrc, hI]
      | jstr s =>
        simp [emitVal, parseValue, skipWs, isWsChar, parseStringBody_escapeList]
      | jarr xs =>
        cases xs with
        | nil => simp [emitVal, parseValue, skipWs, isWsChar]
        | cons x xs2 =>
          rcases emitSeq_head x xs2 with ⟨c, cs, hec, hw, hbk⟩
          have hneed2 : needSeq x xs2 ≤ f := by
            simp only [needV] at hneed
            omega
          have hE : parseElems f (c :: (cs ++ ']' :: rest)) = some (x :: xs2, rest) := by
            rw [← List.cons_append, ← hec]
            exact ihE x xs2 rest hneed2
          rw [show emitVal (.jarr (x :: xs2)) = '[' :: emitSeq x xs2 ++ [']'] from by
            simp [emitVal]]
          have happ : ('[' :: emitSeq x xs2 ++ [']']) ++ rest =
              '[' :: (c :: (cs ++ ']' :: rest)) := by
            rw [hec]
            simp
          rw [happ]
          simp [parseValue, skipWs, hw, hbk, hE, show isWsChar '[' = false from by decide]
      | jobj kvs =>
        cases kvs with
        | nil => simp [emitVal, parseValue, skipWs, isWsChar]
        | cons kv kvs2 =>
          rcases emitFieldSeq_head kv kvs2 with ⟨cs, hec⟩
          have hneed2 : needFieldSeq kv kvs2 ≤ f := by
            simp only [needV] at hneed
            omega
          have hF : parseFields f ('"' :: (cs ++ '\x7d' :: rest)) = some (kv :: kvs2, rest) := by
            rw [← List.cons_append, ← hec]
            exact ihF kv kvs2 rest hneed2
          rw [show emitVal (.jobj (kv :: kvs2)) = '\x7b' :: emitFieldSeq kv kvs2 ++ ['\x7d']
            from by simp [emitVal]]
          have happ : ('\x7b' :: emitFieldSeq kv kvs2 ++ ['\x7d']) ++ rest =
              '\x7b' :: ('"' :: (cs ++ '\x7d' :: rest)) := by
            rw [hec]
            simp
          rw [happ]
          simp [parseValue, skipWs, isWsChar, hF]
    · intro x xs rest hneed
      cases xs with
      | nil =>
        have hneedx : needV x ≤ f := by
          simp only [needSeq] at hneed
          omega
        have hV := ihV x (']' :: rest) hneedx (intBoundary_rbracket rest)
        rw [show emitSeq x [] = emitVal x from by simp [emitSeq]]
        simp [parseElems, hV, skipWs, isWsChar]
      | cons y ys =>
        have hmax : max (needV x) (needSeq y ys) ≤ f := by
          simp only [needSeq] at hneed
          omega
        have hx : needV x ≤ f := le_trans (le_max_left _ _) hmax
        have hys : needSeq y ys ≤ f := le_trans (le_max_right _ _) hmax
        have hV := ihV x (',' :: (emitSeq y ys ++ ']' :: rest)) hx (intBoundary_comma _)
        have hE := ihE y ys rest hys
        rw [show emitSeq x (y :: ys) = emitVal x ++ ',' :: emitSeq y ys from by
          simp [emitSeq]]
        have happ : (emitVal x ++ ',' :: emitSeq y ys) ++ ']' :: rest =
            emitVal x ++ (',' :: (emitSeq y ys ++ ']' :: rest)) := by simp
        rw [happ]
        simp [parseElems, hV, hE, skipWs, isWsChar]
    · intro kv kvs rest hneed
      obtain ⟨k, v⟩ := kv
      cases kvs with
      | nil =>
        have hv : needV v ≤ f := by
          simp only [needFieldSeq] at hneed
          omega
        have hV := ihV v ('\x7d' :: rest) hv (intBoundary_rbrace rest)
        rw [show emitFieldSeq (k, v) [] = '"' :: escapeList k.data ++ '"' :: ':' :: emitVal v
          from by simp [emitFieldSeq]]
        have happ : ('"' :: escapeList k.data ++ '"' :: ':' :: emitVal v) ++ '\x7d' :: rest =
            '"' :: (escapeList k.data ++ '"' :: (':' :: (emitVal v ++ '\x7d' :: rest))) := by
          simp
        rw [happ]
        have hS := parseStringBody_escapeList k.data (':' :: (emitVal v ++ '\x7d' :: rest))
        simp [parseFields, skipWs, isWsChar, hS, hV]
      | cons kv2 kvs2 =>
        have hmax : max (needV v) (needFieldSeq kv2 kvs2) ≤ f := by
          simp only [needFieldSeq] at hneed
          omega
        have hv : needV v ≤ f := le_trans (le_max_left _ _) hmax
        have hks : needFieldSeq kv2 kvs2 ≤ f := le_trans (le_max_right _ _) hmax
        have hV := ihV v (',' :: (emitFieldSeq kv2 kvs2 ++ '\x7d' :: rest)) hv
          (intBoundary_comma _)
        have hF := ihF kv2 kvs2 rest hks
        rw [show emitFieldSeq (k, v) (kv2 :: kvs2) =
            ('"' :: escapeList k.data ++ '"' :: ':' :: emitVal v) ++
              ',' :: emitFieldSeq kv2 kvs2
          from by simp [emitFieldSeq]]
        have happ : (('"' :: escapeList k.data ++ '"' :: ':' :: emitVal v) ++
              ',' :: emitFieldSeq kv2 kvs2) ++ '\x7d' :: rest =
            '"' :: (escapeList k.data ++ '"' :: (':' ::
              (emitVal v ++ ',' :: (emitFieldSeq kv2 kvs2 ++ '\x7d' :: rest)))) := by
          simp
        rw [happ]
        have hS := parseStringBody_escapeList k.data
          (':' :: (emitVal v ++ ',' :: (emitFieldSeq kv2 kvs2 ++ '\x7d' :: rest)))
        simp [parseFields, skipWs, isWsChar, hS, hV, hF]

/-- Every JSON value has positive size. -/
theorem jvalue_sizeOf_pos : ∀ v : JValue, 1 ≤ sizeOf v := by
  intro v
  cases v <;> simp_arith

/-- Every printed value is at least one character long. -/
theorem one_le_emitVal_length : ∀ v, 1 ≤ (emitVal v).length := by
  intro v
  rcases emitVal_head v with ⟨c, cs, hec, _, _⟩
  rw [hec]
  simp

/-- The fuel needed by the parser is bounded by the printed length (plus one
for the stream forms, whose closing delimiter is not part of the stream). -/
theorem need_le_emit_length :
    ∀ n : Nat,
      (∀ v, sizeOf v ≤ n → needV v ≤ (emitVal v).length) ∧
      (∀ x xs, sizeOf x + sizeOf xs ≤ n → needSeq x xs ≤ (emitSeq x xs).length + 1) ∧
      (∀ kv kvs, sizeOf kv + sizeOf kvs ≤ n →
        needFieldSeq kv kvs ≤ (emitFieldSeq kv kvs).length + 1) := by
  intro n
  induction n with
  | zero =>
    refine ⟨?_, ?_, ?_⟩
    · intro v hsz
      have := jvalue_sizeOf_pos v
      omega
    · intro x xs hsz
      have := jvalue_sizeOf_pos x
      omega
    · intro kv kvs hsz
      obtain ⟨k, v⟩ := kv
      have := jvalue_sizeOf_pos v
      have hp : sizeOf ((k, v) : String × JValue) = 1 + sizeOf k + sizeOf v := by simp
      omega
  | succ n ihn =>
    obtain ⟨ihV, ihE, ihF⟩ := ihn
    refine ⟨?_, ?_, ?_⟩
    · intro v hsz
      cases v with
      | jnull => simp [needV, emitVal]
      | jbool b => cases b <;> simp [needV, emitVal]
      | jnum m =>
        rcases emitInt_head m with ⟨c, cs, hec, _⟩
        simp [needV, emitVal, hec]
      | jstr s => simp [needV, emitVal]
      | jarr xs =>
        cases xs with
        | nil => simp [needV, emitVal]
        | cons x xs2 =>
          have hsz2 : sizeOf x + sizeOf xs2 ≤ n := by
            simp only [JValue.jarr.sizeOf_spec, List.cons.sizeOf_spec] at hsz
            omega
          have h1 := ihE x xs2 hsz2
          simp only [needV, emitVal, List.length_append, List.cons.sizeOf_spec,
            List.length_cons, List.length_nil]
          omega
      | jobj kvs =>
        cases kvs with
        | nil => simp [needV, emitVal]
        | cons kv kvs2 =>
          have hsz2 : sizeOf kv + sizeOf kvs2 ≤ n := by
            simp only [JValue.jobj.sizeOf_spec, List.cons.sizeOf_spec] at hsz
            omega
          have h1 := ihF kv kvs2 hsz2
          simp only [needV, emitVal, List.length_append, List.length_cons, List.length_nil]
          omega
    · intro x xs hsz
      cases xs with
      | nil =>
        have hx : sizeOf x ≤ n := by
          simp only [List.nil.sizeOf_spec] at hsz
          omega
        have h1 := ihV x hx
        simp only [needSeq, emitSeq]
        omega
      | cons y ys =>
        have hy := jvalue_sizeOf_pos y
        have hys : 1 ≤ sizeOf ys := by cases ys <;> simp_arith
        have hx : sizeOf x ≤ n := by
          simp only [List.cons.sizeOf_spec] at hsz
          omega
        have hyys : sizeOf y + sizeOf ys ≤ n := by
          have := jvalue_sizeOf_pos x
          simp only [List.cons.sizeOf_spec] at hsz
          omega
        have h1 := ihV x hx
        have h2 := ihE y ys hyys
        have h3 := one_le_emitVal_length x
        simp only [needSeq, emitSeq, List.length_append, List.length_cons]
        omega
    · intro kv kvs hsz
      obtain ⟨k, v⟩ := kv
      cases kvs with
      | nil =>
        have hv : sizeOf v ≤ n := by
          have hp : sizeOf ((k, v) : String × JValue) = 1 + sizeOf k + sizeOf v := by simp
          simp only [List.nil.sizeOf_spec] at hsz
          omega
        have h1 := ihV v hv
        simp only [needFieldSeq, emitFieldSeq, List.length_append, List.length_cons]
        omega
      | cons kv2 kvs2 =>
        have hp : sizeOf ((k, v) : String × JValue) = 1 + sizeOf k + sizeOf v := by simp
        have hkv2 : 1 ≤ sizeOf kv2 := by
          obtain ⟨k2, v2⟩ := kv2
          have := jvalue_sizeOf_pos v2
          simp_arith
        have hkvs2 : 1 ≤ sizeOf kvs2 := by cases kvs2 <;> simp_arith
        have hv : sizeOf v ≤ n := by
          simp only [List.cons.sizeOf_spec] at hsz
          omega
        have hrest : sizeOf kv2 + sizeOf kvs2 ≤ n := by
          simp only [List.cons.sizeOf_spec] at hsz
          omega
        have h1 := ihV v hv
        have h2 := ihF kv2 kvs2 hrest
        have h3 := one_le_emitVal_length v
        simp only [needFieldSeq, emitFieldSeq, List.length_append, List.length_cons]
        omega

/-- The whole-text round trip of the modelled platform codec: `JSON.parse`
recovers exactly what `JSON.stringify` printed. -/
theorem jparse_jstringify (v : JValue) : jparse (jstringify v) = some v := by
  have hlen : needV v ≤ (emitVal v).length := (need_le_emit_length (sizeOf v)).1 v le_rfl
  have hrt := (parse_emit_roundtrip ((emitVal v).length + 1)).1 v [] (by omega) rfl
  rw [List.append_nil] at hrt
  unfold jparse jstringify
  rw [show (String.mk (emitVal v)).data = emitVal v from rfl, hrt]
  simp [skipWs]

/-- C3: counterexample — a stored text that parses to an object (the spec's
own example shape) is returned by `loadTodos` as that object, not as the empty
sequence: the code never checks that the parsed value is an array. -/
theorem load_returns_nonsequence_counterexample :
    loadTodos (some "\x7b\"a\":1\x7d") = .jobj [("a", .jnum 1)] ∧
    loadTodos (some "\x7b\"a\":1\x7d") ≠ .jarr [] := by
  refine ⟨rfl, fun h => ?_⟩
  rw [show loadTodos (some "\x7b\"a\":1\x7d") = JValue.jobj [("a", JValue.jnum 1)] from rfl]
    at h
  exact JValue.noConfusion h

/-- C3 (amended): `loadTodos` returns the empty sequence when the slot is
absent (or holds the empty, falsy string) and when the stored text fails to
parse, and — being a total function whose parse failures are caught — it never
throws; but a stored text that parses successfully is returned as-is, whether
or not it is a sequence (no `Array.isArray` check exists in `loadTodos`). -/
theorem load_absent_or_invalid_yields_empty :
    loadTodos none = .jarr [] ∧
    (∀ s : String, jparse s = none → loadTodos (some s) = .jarr []) ∧
    (∀ (s : String) (v : JValue), jparse s = some v → loadTodos (some s) = v) := by
  refine ⟨rfl, ?_, ?_⟩
  · intro s h
    unfold loadTodos
    by_cases he : s = ""
    · simp [he]
    · simp [he, h]
  · intro s v h
    have hne : s ≠ "" := by
      intro he
      subst he
      rw [show jparse "" = none from rfl] at h
      exact Option.noConfusion h
    unfold loadTodos
    simp [hne, h]

/-- Witness for C3 (amended): the unparsable slot text "oops" loads as the
empty sequence, and the parsable array text loads as its parsed value. -/
theorem load_absent_or_invalid_yields_empty_witness :
    loadTodos (some "oops") = .jarr [] ∧ loadTodos (some "[1]") = .jarr [.jnum 1] :=
  ⟨load_absent_or_invalid_yields_empty.2.1 "oops" rfl,
   load_absent_or_invalid_yields_empty.2.2 "[1]" (.jarr [.jnum 1]) rfl⟩

/-- C8 (confirmed): loading back a saved task sequence yields exactly the
sequence's JSON image, in order; and the task-to-JSON encoding is injective,
so every field of every task is preserved — `load(save(S))` is `S`. -/
theorem load_save_roundtrip :
    ∀ S : List Todo,
      loadTodos (some (saveTodos S)) = .jarr (S.map encodeTodo) ∧
      (∀ t1 t2 : Todo, encodeTodo t1 = encodeTodo t2 → t1 = t2) := by
  intro S
  constructor
  · have hne : saveTodos S ≠ "" := by
      unfold saveTodos jstringify
      intro h
      have hdat : (String.mk (emitVal (.jarr (S.map encodeTodo)))).data = ("" : String).data :=
        by rw [h]
      rcases emitVal_head (.jarr (S.map encodeTodo)) with ⟨c, cs, hec, _, _⟩
      rw [show (String.mk (emitVal (.jarr (S.map encodeTodo)))).data =
        emitVal (.jarr (S.map encodeTodo)) from rfl, hec] at hdat
      exact List.noConfusion hdat
    have hj : jparse (saveTodos S) = some (.jarr (S.map encodeTodo)) :=
      jparse_jstringify (.jarr (S.map encodeTodo))
    unfold loadTodos
    simp [hne, hj]
  · intro t1 t2 h
    simp only [encodeTodo, JValue.jobj.injEq, List.cons.injEq, Prod.mk.injEq,
      JValue.jstr.injEq, JValue.jbool.injEq, and_true, true_and] at h
    obtain ⟨h1, h2, h3, h4⟩ := h
    cases t1
    cases t2
    simp_all

/-- Witness for C8 at a one-task store. -/
theorem load_save_roundtrip_witness :
    loadTodos (some (saveTodos [sampleA])) = .jarr ([sampleA].map encodeTodo) ∧
    sampleA = sampleA :=
  ⟨(load_save_roundtrip [sampleA]).1, (load_save_roundtrip [sampleA]).2 sampleA sampleA rfl⟩

/-- C9 (confirmed): whenever the import text parses to an array, `importTodos`
replaces the in-memory sequence with exactly the decoded elements, in order,
saves, and notifies success — with no validation of the elements, which may
lack every task field or repeat ids (see the witness). -/
theorem import_replaces_sequence_verbatim :
    ∀ (raw : String) (todos xs : List JValue),
      jparse raw = some (.jarr xs) →
      importTodos raw todos =
        { todos := xs
          saved := true
          notifications :=
            [{ message := "Todos imported successfully!", severity := "success" }] } := by
  intro raw todos xs h
  unfold importTodos
  rw [h]

/-- Witness for C9: importing two bare objects that carry the same id "x" and
none of the other task fields replaces the (empty) sequence with exactly those
two elements. -/
theorem import_replaces_sequence_verbatim_witness :
    importTodos "[\x7b\"id\":\"x\"\x7d,\x7b\"id\":\"x\"\x7d]" [] =
      { todos := [.jobj [("id", .jstr "x")], .jobj [("id", .jstr "x")]]
        saved := true
        notifications :=
          [{ message := "Todos imported successfully!", severity := "success" }] } :=
  import_replaces_sequence_verbatim "[\x7b\"id\":\"x\"\x7d,\x7b\"id\":\"x\"\x7d]" []
    [.jobj [("id", .jstr "x")], .jobj [("id", .jstr "x")]] rfl
